import Mathlib

/-
Verification of the itinerary price optimizer in
src/cheapest_flight_finder.py.

The embedding is shallow: dictionaries become finite maps or association
lists, SQL state becomes an explicit append-only list of rows, Python
floats become exact rationals, and dates become integer day numbers.
Network calls (the fare provider, Telegram) are abstracted away: the
functions below receive the data those calls would have produced.
-/

/-- An entry of the per-segment best-price dictionary built in
find_cheapest_per_segment, and equally a single fare quote feeding the
fold: the airline code is offer["validatingAirlineCodes"][0], the price is
float(offer["price"]["total"]), the date is the scanned departure date
(modelled as an integer day number). The opaque offer payload carried
alongside in the Python dict is represented by the record itself. -/
structure Entry where
  airline : String
  price : ℚ
  date : Int
deriving DecidableEq, Repr

/-- One leg of the configured itinerary (an element of ITINERARY): origin,
destination, start date (integer day number) and days_range. -/
structure Segment where
  origin : String
  destination : String
  start_date : Int
  days_range : Nat
deriving DecidableEq, Repr

/-- Combined multi-city result, the FlightOffer dataclass: chosen offers
(one Entry standing for each stored offer), total price, chosen dates. -/
structure FlightOffer where
  segments : List Entry
  price : ℚ
  dates : List Int
deriving DecidableEq, Repr

/-- Embeds generate_date_options (lines 147-152): the dates
start + i for i in range(0, days_range, step). For step ≥ 1, Python's
range(0, n, step) is exactly the increasing list of i < n divisible by
step, which is how it is written here. -/
def generate_date_options (segment : Segment) (step : Nat) : List Int :=
  ((List.range segment.days_range).filter (fun i => i % step == 0)).map
    (fun (i : Nat) => segment.start_date + (i : Int))

/-- One update of the airline_best dictionary in find_cheapest_per_segment
(lines 174-185): insert the quote when its airline code is absent, replace
the stored entry only when the new price is strictly lower. The dictionary
is modelled as a function from airline codes to optional entries. -/
def airline_best_step (f : String → Option Entry) (q : Entry) : String → Option Entry :=
  fun a =>
    if a = q.airline then
      match f q.airline with
      | none => some q
      | some e => if q.price < e.price then some q else some e
    else f a

/-- The airline_best dictionary after folding a whole sequence of quotes
(all offers returned across the scanned dates of one segment, in scan
order). -/
def airline_best (qs : List Entry) : String → Option Entry :=
  qs.foldl airline_best_step (fun _ => none)

/-- Entries of one segment's list whose validating airline code is a:
the list comprehension [s for s in segs if s["offer"]["validatingAirlineCodes"][0] == airline]
in combine_segments (line 217). -/
def entriesFor (a : String) (segs : List Entry) : List Entry :=
  segs.filter (fun e => e.airline == a)

/-- Python's min(lst, key=lambda x: x["price"]): the first element of
minimal price. Returns none on the empty list, where Python would raise
ValueError; combine_segments only evaluates it on nonempty lists. -/
def minByPrice : List Entry → Option Entry
  | [] => none
  | x :: xs => some (xs.foldl (fun b e => if e.price < b.price then e else b) x)

/-- The inner loop of combine_segments for one airline (lines 212-222):
pick, in each segment, the cheapest entry for that airline. Returns none
when some segment has no entry for the airline (the Python code would
raise there; this branch is unreachable for airlines of the
intersection). -/
def chooseForAirline (a : String) : List (List Entry) → Option (List Entry)
  | [] => some []
  | segs :: rest =>
    match minByPrice (entriesFor a segs), chooseForAirline a rest with
    | some e, some l => some (e :: l)
    | _, _ => none

/-- The candidate FlightOffer built for one airline of the intersection:
chosen segments, total_price as the sum of the chosen prices, and the
chosen dates (lines 212-227). -/
def mkOffer (sr : List (List Entry)) (a : String) : Option FlightOffer :=
  match chooseForAirline a sr with
  | none => none
  | some chosen => some ⟨chosen, (chosen.map Entry.price).sum, chosen.map Entry.date⟩

/-- One iteration of the best_offer/best_price update (lines 223-227):
the candidate replaces the incumbent only when its total is strictly
lower; best_price starts at infinity, modelled by the none incumbent. A
none candidate stands for the unreachable raising branch and leaves the
incumbent in place. -/
def pickBetter (cand incumbent : Option FlightOffer) : Option FlightOffer :=
  match cand, incumbent with
  | none, b => b
  | some o, none => some o
  | some o, some b => if o.price < b.price then some o else some b

/-- The loop over common_airlines in combine_segments (lines 208-227).
Python iterates a set, whose enumeration order is hash-dependent, so the
enumeration is an explicit parameter here. -/
def combineAux (sr : List (List Entry)) : List String → Option FlightOffer → Option FlightOffer
  | [], best => best
  | a :: rest, best => combineAux sr rest (pickBetter (mkOffer sr a) best)

/-- Airline codes present in one segment's result list, i.e. the Python
set([s["offer"]["validatingAirlineCodes"][0] for s in segs]) (lines
203-206), as a deduplicated list. -/
def airlinesOf (segs : List Entry) : List String :=
  (segs.map Entry.airline).dedup

/-- common_airlines = set.intersection(*airline_sets) (line 207),
enumerated in first-segment order. Python raises TypeError on an empty
segment list; the theorems below assume at least one segment. -/
def commonAirlines : List (List Entry) → List String
  | [] => []
  | segs :: rest =>
    (airlinesOf segs).filter (fun a => rest.all (fun t => (t.map Entry.airline).contains a))

/-- combine_segments in same-airline mode with an explicit enumeration
order of the airline intersection (standing for Python's hash-dependent
set iteration order). -/
def combineSegmentsSameOrder (order : List String) (sr : List (List Entry)) : Option FlightOffer :=
  combineAux sr order none

/-- combine_segments (lines 200-229) with PREFER_SAME_AIRLINE = True,
using the canonical first-segment enumeration of the intersection. -/
def combineSegmentsSame (sr : List (List Entry)) : Option FlightOffer :=
  combineSegmentsSameOrder (commonAirlines sr) sr

/-- combine_segments (lines 230-237) with PREFER_SAME_AIRLINE = False:
each element of segment_results is the single cheapest entry of a segment
or None; falsy (None) elements are filtered out and the rest are summed.
Note this branch always builds a FlightOffer. -/
def combineSegmentsIndep (sr : List (Option Entry)) : FlightOffer :=
  let chosen := sr.filterMap id
  ⟨chosen, (chosen.map Entry.price).sum, chosen.map Entry.date⟩

/-- Shape of find_cheapest_per_segment's result, which depends on
PREFER_SAME_AIRLINE (lines 191-195): per segment either the full list of
airline_best values, or only the cheapest entry (None when the segment
produced no quotes). -/
inductive SegmentResults where
  | same (sr : List (List Entry))
  | indep (sr : List (Option Entry))
deriving DecidableEq, Repr

/-- combine_segments (lines 200-237), dispatching on the mode. -/
def combine_segments : SegmentResults → Option FlightOffer
  | .same sr => combineSegmentsSame sr
  | .indep sr => some (combineSegmentsIndep sr)

/-- Truthiness of all(segment_results) (line 247): in same-airline mode
each per-segment list must be nonempty, otherwise each element must not be
None. -/
def allTruthy : SegmentResults → Bool
  | .same sr => sr.all (fun segs => !segs.isEmpty)
  | .indep sr => sr.all Option.isSome

/-- The cheapest_flights table (rows itinerary, price) as an append-only
list; save_offer (lines 82-87) inserts one row. -/
def save_offer (hist : List (String × ℚ)) (key : String) (price : ℚ) : List (String × ℚ) :=
  hist ++ [(key, price)]

/-- Prices of the rows recorded for one itinerary key, in insertion
order: the rows SELECT MIN(price) ranges over in get_prev_best. -/
def pricesFor (hist : List (String × ℚ)) (key : String) : List ℚ :=
  (hist.filter (fun r => r.1 == key)).map Prod.snd

/-- Embeds get_prev_best (lines 74-80): SELECT MIN(price) over the rows
for the key gives NULL when there are no rows, and the Python line
"row[0] if row and row[0] else None" maps both NULL and a minimum of 0 to
None, because 0.0 is falsy. -/
def get_prev_best (hist : List (String × ℚ)) (key : String) : Option ℚ :=
  match (pricesFor hist key).min? with
  | none => none
  | some m => if m = 0 then none else some m

/-- The itinerary_key string built in run_check (lines 254-259) from the
configured legs and the chosen dates, via zip (truncating to the
shorter list as in Python). -/
def itinerary_key (itin : List (String × String)) (dates : List Int) : String :=
  String.intercalate "-"
    ((itin.zip dates).map (fun p => p.1.1 ++ "->" ++ p.1.2 ++ ":" ++ toString p.2))

/-- Observable outcome of one run: whether a Telegram alert was sent, and
the cheapest_flights table afterwards. -/
structure RunOutcome where
  notified : Bool
  hist : List (String × ℚ)
deriving DecidableEq, Repr

/-- Embeds the decision logic of run_check (lines 240-269), with the scan
results, the configured legs, the ceiling and the stored history as
explicit inputs: guard all(segment_results), combine, compare the total
against MAX_PRICE, look up the previous best, notify on a strict
improvement or a missing previous best, and append the observation. -/
def run_check (itin : List (String × String)) (maxPrice : ℚ)
    (sres : SegmentResults) (hist : List (String × ℚ)) : RunOutcome :=
  if allTruthy sres then
    match combine_segments sres with
    | some best =>
      if best.price ≤ maxPrice then
        let key := itinerary_key itin best.dates
        let doNotify :=
          match get_prev_best hist key with
          | none => true
          | some p => decide (best.price < p)
        ⟨doNotify, save_offer hist key best.price⟩
      else ⟨false, hist⟩
    | none => ⟨false, hist⟩
  else ⟨false, hist⟩

/-- Airline a appears in every segment's result list: membership in the
airline-set intersection of line 207. -/
def isCommon (sr : List (List Entry)) (a : String) : Prop :=
  ∀ segs ∈ sr, ∃ e ∈ segs, e.airline = a

/-- Total price an airline of the intersection would pay: per segment the
sum of the prices of its entries (a singleton sum for a well-formed
SegmentIndex, which holds at most one entry per airline). -/
def totalFor (sr : List (List Entry)) (a : String) : ℚ :=
  (sr.map (fun segs => ((entriesFor a segs).map Entry.price).sum)).sum

/-- Minimum of a starting value (none meaning "no entry yet") and a list
of further prices; describes how the stored price of one airline evolves
through the airline_best fold. -/
def runningMin (start : Option ℚ) (ps : List ℚ) : Option ℚ :=
  match start with
  | none => ps.min?
  | some p => some (ps.foldl min p)

instance : Std.Antisymm (fun a b : ℚ => a ≤ b) :=
  ⟨@fun _ _ h h2 => le_antisymm h h2⟩

/-! Theorems. -/

theorem rat_min?_eq_some_iff (l : List ℚ) (a : ℚ) :
    l.min? = some a ↔ a ∈ l ∧ ∀ b ∈ l, a ≤ b :=
  List.min?_eq_some_iff (fun x => le_refl x) (fun x y => min_choice x y)
    (fun _ _ _ => le_min_iff)

theorem rat_min?_perm (l l2 : List ℚ) (h : l.Perm l2) : l.min? = l2.min? := by
  cases hl : l.min? with
  | none =>
    rw [List.min?_eq_none_iff] at hl
    subst hl
    simp [h.symm.eq_nil]
  | some a =>
    rw [rat_min?_eq_some_iff] at hl
    symm
    rw [rat_min?_eq_some_iff]
    exact ⟨h.mem_iff.mp hl.1, fun b hb => hl.2 b (h.mem_iff.mpr hb)⟩

/-- Claim C6: for a segment with stepDays ≥ 1 and windowDays > 0,
generate_date_options returns exactly the dates start_date + k * step for
the k ≥ 0 with k * step < days_range, strictly increasing, all inside
[start_date, start_date + days_range). -/
theorem generate_date_options_spec (seg : Segment) (step : Nat)
    (hstep : 1 ≤ step) (hwin : 0 < seg.days_range) :
    (∀ d : Int, d ∈ generate_date_options seg step ↔
      ∃ k : Nat, d = seg.start_date + ((k * step : Nat) : Int) ∧
        k * step < seg.days_range) ∧
    (generate_date_options seg step).Pairwise (· < ·) ∧
    ∀ d ∈ generate_date_options seg step,
      seg.start_date ≤ d ∧ d < seg.start_date + (seg.days_range : Int) := by
  have hmem : ∀ d : Int, d ∈ generate_date_options seg step ↔
      ∃ k : Nat, d = seg.start_date + ((k * step : Nat) : Int) ∧
        k * step < seg.days_range := by
    intro d
    simp only [generate_date_options, List.mem_map, List.mem_filter, List.mem_range,
      beq_iff_eq]
    constructor
    · rintro ⟨i, ⟨hilt, hmod⟩, rfl⟩
      obtain ⟨k, rfl⟩ := Nat.dvd_of_mod_eq_zero hmod
      exact ⟨k, by rw [Nat.mul_comm step k], by rwa [Nat.mul_comm step k] at hilt⟩
    · rintro ⟨k, rfl, hk⟩
      exact ⟨k * step, ⟨hk, Nat.mul_mod_left k step⟩, rfl⟩
  refine ⟨hmem, ?_, ?_⟩
  · unfold generate_date_options
    rw [List.pairwise_map]
    have hrange : (List.range seg.days_range).Pairwise (· < ·) :=
      List.pairwise_lt_range seg.days_range
    have hfil : ((List.range seg.days_range).filter
        (fun i => i % step == 0)).Pairwise (· < ·) :=
      hrange.sublist (List.filter_sublist _)
    exact hfil.imp (fun hab => by omega)
  · intro d hd
    obtain ⟨k, rfl, hk⟩ := (hmem d).mp hd
    omega

/-- Witness for C6 at the segment SIN→VIE, start day 0, window 5, step 2
(the dates are day offsets 0, 2, 4). -/
theorem generate_date_options_spec_witness :
    (∀ d : Int, d ∈ generate_date_options ⟨"SIN", "VIE", 0, 5⟩ 2 ↔
      ∃ k : Nat, d = (⟨"SIN", "VIE", 0, 5⟩ : Segment).start_date + ((k * 2 : Nat) : Int) ∧
        k * 2 < (⟨"SIN", "VIE", 0, 5⟩ : Segment).days_range) ∧
    (generate_date_options ⟨"SIN", "VIE", 0, 5⟩ 2).Pairwise (· < ·) ∧
    ∀ d ∈ generate_date_options ⟨"SIN", "VIE", 0, 5⟩ 2,
      (⟨"SIN", "VIE", 0, 5⟩ : Segment).start_date ≤ d ∧
        d < (⟨"SIN", "VIE", 0, 5⟩ : Segment).start_date +
          (((⟨"SIN", "VIE", 0, 5⟩ : Segment).days_range : Nat) : Int) :=
  generate_date_options_spec ⟨"SIN", "VIE", 0, 5⟩ 2 (by decide) (by decide)

/-- Counterexample to claim C9: on a zero-width window the code returns
the empty list, not the single-element list [start_date] (range(0, 0, 1)
is empty). -/
theorem generate_zero_window_cex :
    generate_date_options ⟨"SIN", "VIE", 0, 0⟩ 1 = [] ∧
    generate_date_options ⟨"SIN", "VIE", 0, 0⟩ 1 ≠
      [(⟨"SIN", "VIE", 0, 0⟩ : Segment).start_date] := by
  decide

/-- Claim C9 amended: for a segment whose window is zero-width
(days_range = 0), generate_date_options returns the empty sequence. -/
theorem generate_zero_window_amended (seg : Segment) (step : Nat)
    (hwin : seg.days_range = 0) :
    generate_date_options seg step = [] := by
  simp [generate_date_options, hwin]

/-- Witness for the amended C9 at a concrete zero-width segment. -/
theorem generate_zero_window_amended_witness :
    (⟨"SIN", "VIE", 0, 0⟩ : Segment).days_range = 0 ∧
    generate_date_options ⟨"SIN", "VIE", 0, 0⟩ 1 = [] :=
  ⟨by decide, generate_zero_window_amended ⟨"SIN", "VIE", 0, 0⟩ 1 (by decide)⟩

/-- Claim C4: when the combined itinerary is None or its total strictly
exceeds MAX_PRICE, run_check neither notifies nor writes history: the
outcome is ⟨false, hist⟩ with the history unchanged. -/
theorem run_check_suppressed_frame (itin : List (String × String)) (maxPrice : ℚ)
    (sres : SegmentResults) (hist : List (String × ℚ))
    (h : combine_segments sres = none ∨
      ∃ offer, combine_segments sres = some offer ∧ maxPrice < offer.price) :
    run_check itin maxPrice sres hist = ⟨false, hist⟩ := by
  unfold run_check
  by_cases hall : allTruthy sres
  · rw [if_pos hall]
    rcases h with hnone | ⟨offer, hsome, hgt⟩
    · rw [hnone]
    · rw [hsome]
      simp [not_le.mpr hgt]
  · rw [if_neg hall]

/-- Witness for C4: two singleton segment indices with no common airline,
under same-airline mode; combine yields None and the run leaves the
history [("x", 7)] untouched. -/
theorem run_check_suppressed_frame_witness :
    run_check [("SIN", "VIE"), ("ZAG", "SIN")] 1400
      (SegmentResults.same [[⟨"AA", 700, 0⟩], [⟨"BB", 650, 15⟩]]) [("x", 7)] =
      ⟨false, [("x", 7)]⟩ :=
  run_check_suppressed_frame _ _ _ _
    (Or.inl (by simp +decide [combine_segments, combineSegmentsSame,
      combineSegmentsSameOrder, combineAux, commonAirlines, airlinesOf,
      List.dedup_cons_of_not_mem, List.filter_cons]))

/-- Claim C3: when the combined itinerary exists and its total is at or
below the ceiling, run_check notifies exactly when get_prev_best is
absent or the total is strictly below it (an observation equal to the
prior minimum does not notify), and in either case the observed price is
appended to the history; the notification decision reads the history as
it was before the append. -/
theorem run_check_notify_spec (itin : List (String × String)) (maxPrice : ℚ)
    (sres : SegmentResults) (hist : List (String × ℚ)) (offer : FlightOffer)
    (hall : allTruthy sres = true)
    (hcomb : combine_segments sres = some offer)
    (hceil : offer.price ≤ maxPrice) :
    (run_check itin maxPrice sres hist).hist =
      save_offer hist (itinerary_key itin offer.dates) offer.price ∧
    ((run_check itin maxPrice sres hist).notified = true ↔
      get_prev_best hist (itinerary_key itin offer.dates) = none ∨
      ∃ p, get_prev_best hist (itinerary_key itin offer.dates) = some p ∧
        offer.price < p) ∧
    ∀ p, get_prev_best hist (itinerary_key itin offer.dates) = some p →
      offer.price = p → (run_check itin maxPrice sres hist).notified = false := by
  have hrun : run_check itin maxPrice sres hist =
      ⟨(match get_prev_best hist (itinerary_key itin offer.dates) with
        | none => true
        | some p => decide (offer.price < p)),
       save_offer hist (itinerary_key itin offer.dates) offer.price⟩ := by
    unfold run_check
    rw [if_pos hall, hcomb]
    simp [if_pos hceil]
  rw [hrun]
  refine ⟨rfl, ?_, ?_⟩
  · cases hp : get_prev_best hist (itinerary_key itin offer.dates) with
    | none => simp
    | some p =>
      simp only [decide_eq_true_eq]
      constructor
      · intro hlt
        exact Or.inr ⟨p, rfl, hlt⟩
      · rintro (hno | ⟨q, hq, hlt⟩)
        · exact absurd hno (by simp)
        · cases hq
          exact hlt
  · intro p hp heq
    rw [hp]
    simp [heq]

/-- Witness for C3 in independent mode with one segment: the quote AA at
100 is below the ceiling 1400 and below the recorded 200, so the run
notifies and appends the observation. -/
theorem run_check_notify_spec_witness :
    (run_check [("SIN", "VIE")] 1400 (SegmentResults.indep [some ⟨"AA", 100, 5⟩])
        [("SIN->VIE:5", 200)]).hist =
      save_offer [("SIN->VIE:5", 200)]
        (itinerary_key [("SIN", "VIE")] [5]) 100 ∧
    ((run_check [("SIN", "VIE")] 1400 (SegmentResults.indep [some ⟨"AA", 100, 5⟩])
        [("SIN->VIE:5", 200)]).notified = true ↔
      get_prev_best [("SIN->VIE:5", 200)] (itinerary_key [("SIN", "VIE")] [5]) = none ∨
      ∃ p, get_prev_best [("SIN->VIE:5", 200)] (itinerary_key [("SIN", "VIE")] [5]) =
        some p ∧ (100 : ℚ) < p) ∧
    ∀ p, get_prev_best [("SIN->VIE:5", 200)] (itinerary_key [("SIN", "VIE")] [5]) =
      some p → (100 : ℚ) = p →
      (run_check [("SIN", "VIE")] 1400 (SegmentResults.indep [some ⟨"AA", 100, 5⟩])
        [("SIN->VIE:5", 200)]).notified = false :=
  run_check_notify_spec [("SIN", "VIE")] 1400 (SegmentResults.indep [some ⟨"AA", 100, 5⟩])
    [("SIN->VIE:5", 200)] ⟨[⟨"AA", 100, 5⟩], 100, [5]⟩
    (by decide)
    (by simp +decide [combine_segments, combineSegmentsIndep])
    (by norm_num)

/-- Claim C10: when every price recorded for the key is 0, get_prev_best
reports no previous best (0.0 is falsy in the Python guard), so an
in-ceiling combined itinerary notifies regardless of the history. -/
theorem run_check_zero_history_notifies (itin : List (String × String)) (maxPrice : ℚ)
    (sres : SegmentResults) (hist : List (String × ℚ)) (offer : FlightOffer)
    (hrec : pricesFor hist (itinerary_key itin offer.dates) ≠ [])
    (hzero : ∀ p ∈ pricesFor hist (itinerary_key itin offer.dates), p = 0)
    (hall : allTruthy sres = true)
    (hcomb : combine_segments sres = some offer)
    (hceil : offer.price ≤ maxPrice) :
    get_prev_best hist (itinerary_key itin offer.dates) = none ∧
    (run_check itin maxPrice sres hist).notified = true := by
  have hnone : get_prev_best hist (itinerary_key itin offer.dates) = none := by
    unfold get_prev_best
    cases hm : (pricesFor hist (itinerary_key itin offer.dates)).min? with
    | none => rfl
    | some m =>
      have hmem := ((rat_min?_eq_some_iff _ m).mp hm).1
      show (if m = 0 then none else some m) = none
      rw [if_pos (hzero m hmem)]
  refine ⟨hnone, ?_⟩
  have hrun : run_check itin maxPrice sres hist =
      ⟨(match get_prev_best hist (itinerary_key itin offer.dates) with
        | none => true
        | some p => decide (offer.price < p)),
       save_offer hist (itinerary_key itin offer.dates) offer.price⟩ := by
    unfold run_check
    rw [if_pos hall, hcomb]
    simp [if_pos hceil]
  rw [hrun, hnone]

/-- Witness for C10: history holding a single 0-priced row for the key;
the run notifies on a price of 100 despite the record. -/
theorem run_check_zero_history_notifies_witness :
    get_prev_best [("SIN->VIE:5", 0)] (itinerary_key [("SIN", "VIE")] [5]) = none ∧
    (run_check [("SIN", "VIE")] 1400 (SegmentResults.indep [some ⟨"AA", 100, 5⟩])
      [("SIN->VIE:5", 0)]).notified = true :=
  run_check_zero_history_notifies [("SIN", "VIE")] 1400
    (SegmentResults.indep [some ⟨"AA", 100, 5⟩]) [("SIN->VIE:5", 0)]
    ⟨[⟨"AA", 100, 5⟩], 100, [5]⟩
    (by simp +decide [pricesFor, itinerary_key, String.intercalate, List.filter_cons])
    (by simp +decide [pricesFor, itinerary_key, String.intercalate, List.filter_cons])
    (by decide)
    (by simp +decide [combine_segments, combineSegmentsIndep])
    (by norm_num)

theorem runningMin_nil (start : Option ℚ) : runningMin start [] = start := by
  cases start <;> rfl

theorem runningMin_cons (start : Option ℚ) (p : ℚ) (ps : List ℚ) :
    runningMin start (p :: ps) =
      runningMin (some (match start with | none => p | some q => min q p)) ps := by
  cases start <;> rfl

theorem airline_best_foldl_price (qs : List Entry) :
    ∀ (f : String → Option Entry) (a : String),
    ((qs.foldl airline_best_step f) a).map Entry.price =
      runningMin ((f a).map Entry.price)
        ((qs.filter (fun q => q.airline == a)).map Entry.price) := by
  induction qs with
  | nil =>
    intro f a
    simp [runningMin_nil]
  | cons q qs ih =>
    intro f a
    rw [List.foldl_cons, ih (airline_best_step f q) a]
    by_cases h : q.airline = a
    · have hfil : (q :: qs).filter (fun q => q.airline == a) =
          q :: qs.filter (fun q => q.airline == a) := by
        simp [List.filter_cons, h]
      rw [hfil, List.map_cons, runningMin_cons]
      congr 1
      have hstep : airline_best_step f q a =
          match f a with
          | none => some q
          | some e => if q.price < e.price then some q else some e := by
        unfold airline_best_step
        rw [if_pos h.symm, h]
      rw [hstep]
      cases hfa : f a with
      | none => rfl
      | some e =>
        show Option.map Entry.price (if q.price < e.price then some q else some e) =
          some (min e.price q.price)
        rcases lt_or_le q.price e.price with hlt | hle
        · rw [if_pos hlt, min_eq_right hlt.le]
          rfl
        · rw [if_neg (not_lt.mpr hle), min_eq_left hle]
          rfl
    · have hfil : (q :: qs).filter (fun q => q.airline == a) =
          qs.filter (fun q => q.airline == a) := by
        simp [List.filter_cons, h]
      rw [hfil]
      have hstep : airline_best_step f q a = f a := by
        unfold airline_best_step
        rw [if_neg (fun hc => h hc.symm)]
      rw [hstep]

theorem airline_best_price_eq_min (qs : List Entry) (a : String) :
    (airline_best qs a).map Entry.price =
      ((qs.filter (fun q => q.airline == a)).map Entry.price).min? := by
  rw [airline_best, airline_best_foldl_price]
  rfl

/-- Claim C2 amended: after folding any sequence of quotes, the stored
price for each airline code is the minimum quote price for that code (and
the price so stored is independent of the processing order); the full
stored entry is not order-independent when prices tie, see the
counterexample. -/
theorem airline_best_fold_spec (qs qs2 : List Entry) (hperm : qs.Perm qs2) (a : String) :
    (airline_best qs a).map Entry.price =
      ((qs.filter (fun q => q.airline == a)).map Entry.price).min? ∧
    (airline_best qs a).map Entry.price = (airline_best qs2 a).map Entry.price := by
  refine ⟨airline_best_price_eq_min qs a, ?_⟩
  rw [airline_best_price_eq_min, airline_best_price_eq_min]
  exact rat_min?_perm _ _ ((hperm.filter _).map _)

/-- Witness for the amended C2: two AA quotes at 100 and 80 in either
order store price 80 for AA. -/
theorem airline_best_fold_spec_witness :
    (airline_best [⟨"AA", 100, 1⟩, ⟨"AA", 80, 2⟩] "AA").map Entry.price =
      ((([⟨"AA", 100, 1⟩, ⟨"AA", 80, 2⟩] : List Entry).filter
        (fun q => q.airline == "AA")).map Entry.price).min? ∧
    (airline_best [⟨"AA", 100, 1⟩, ⟨"AA", 80, 2⟩] "AA").map Entry.price =
      (airline_best [⟨"AA", 80, 2⟩, ⟨"AA", 100, 1⟩] "AA").map Entry.price :=
  airline_best_fold_spec [⟨"AA", 100, 1⟩, ⟨"AA", 80, 2⟩]
    [⟨"AA", 80, 2⟩, ⟨"AA", 100, 1⟩] (by decide) "AA"

/-- Counterexample to claim C2 as stated: two equal-priced AA quotes on
different dates. The fold keeps the first one seen (replacement needs a
strictly lower price), so the final index depends on the processing
order. -/
theorem airline_best_order_cex :
    ([⟨"AA", 100, 1⟩, ⟨"AA", 100, 2⟩] : List Entry).Perm
      [⟨"AA", 100, 2⟩, ⟨"AA", 100, 1⟩] ∧
    airline_best [⟨"AA", 100, 1⟩, ⟨"AA", 100, 2⟩] "AA" ≠
      airline_best [⟨"AA", 100, 2⟩, ⟨"AA", 100, 1⟩] "AA" := by
  constructor
  · decide
  · simp +decide [airline_best, airline_best_step]

theorem pricesFor_perm (hist hist2 : List (String × ℚ)) (h : hist.Perm hist2)
    (key : String) : (pricesFor hist key).Perm (pricesFor hist2 key) :=
  (h.filter _).map _

/-- Claim C8 amended: get_prev_best returns the minimum recorded price
for the key when that minimum is nonzero, independent of the order of the
record calls; it returns absent when nothing has been recorded for the
key or when the minimum recorded price equals 0 (the falsy-zero guard),
see the counterexample. -/
theorem get_prev_best_spec (hist hist2 : List (String × ℚ)) (key : String)
    (hperm : hist.Perm hist2) :
    (get_prev_best hist key = none ↔
      pricesFor hist key = [] ∨ (pricesFor hist key).min? = some 0) ∧
    (∀ m : ℚ, (pricesFor hist key).min? = some m → m ≠ 0 →
      get_prev_best hist key = some m) ∧
    (∀ m : ℚ, get_prev_best hist key = some m →
      m ∈ pricesFor hist key ∧ ∀ p ∈ pricesFor hist key, m ≤ p) ∧
    get_prev_best hist key = get_prev_best hist2 key := by
  refine ⟨?_, ?_, ?_, ?_⟩
  · unfold get_prev_best
    cases hm : (pricesFor hist key).min? with
    | none =>
      rw [List.min?_eq_none_iff] at hm
      simp [hm]
    | some m =>
      show (if m = 0 then none else some m) = none ↔ _
      have hne : pricesFor hist key ≠ [] := by
        intro hnil
        rw [hnil] at hm
        cases hm
      by_cases hz : m = 0
      · subst hz
        simp [hm, hne]
      · simp [hz, hm, hne]
  · intro m hm hz
    unfold get_prev_best
    rw [hm]
    show (if m = 0 then none else some m) = some m
    rw [if_neg hz]
  · intro m hm
    unfold get_prev_best at hm
    cases hmin : (pricesFor hist key).min? with
    | none => rw [hmin] at hm; cases hm
    | some m2 =>
      rw [hmin] at hm
      have : (if m2 = 0 then (none : Option ℚ) else some m2) = some m := hm
      by_cases hz : m2 = 0
      · rw [if_pos hz] at this; cases this
      · rw [if_neg hz] at this
        cases this
        exact (rat_min?_eq_some_iff _ m).mp hmin
  · unfold get_prev_best
    rw [rat_min?_perm _ _ (pricesFor_perm hist hist2 hperm key)]

/-- Witness for the amended C8 at a two-row history in either order. -/
theorem get_prev_best_spec_witness :
    (get_prev_best [("k", 5), ("k", 3)] "k" = none ↔
      pricesFor [("k", 5), ("k", 3)] "k" = [] ∨
      (pricesFor [("k", 5), ("k", 3)] "k").min? = some 0) ∧
    (∀ m : ℚ, (pricesFor [("k", 5), ("k", 3)] "k").min? = some m → m ≠ 0 →
      get_prev_best [("k", 5), ("k", 3)] "k" = some m) ∧
    (∀ m : ℚ, get_prev_best [("k", 5), ("k", 3)] "k" = some m →
      m ∈ pricesFor [("k", 5), ("k", 3)] "k" ∧
        ∀ p ∈ pricesFor [("k", 5), ("k", 3)] "k", m ≤ p) ∧
    get_prev_best [("k", 5), ("k", 3)] "k" = get_prev_best [("k", 3), ("k", 5)] "k" :=
  get_prev_best_spec [("k", 5), ("k", 3)] [("k", 3), ("k", 5)] "k" (by decide)

/-- Counterexample to claim C8 as stated: one recorded price 0 for the
key. The minimum recorded price is 0, and a price has been recorded, yet
get_prev_best returns none. -/
theorem get_prev_best_zero_cex :
    get_prev_best (save_offer [] "k" 0) "k" = none ∧
    (pricesFor (save_offer [] "k" 0) "k").min? = some 0 ∧
    pricesFor (save_offer [] "k" 0) "k" ≠ [] := by
  refine ⟨?_, ?_, ?_⟩
  · simp +decide [get_prev_best, save_offer, pricesFor, List.filter_cons, List.min?]
  · simp +decide [save_offer, pricesFor, List.filter_cons, List.min?]
  · simp +decide [save_offer, pricesFor, List.filter_cons]

theorem foldl_minBy_spec (xs : List Entry) : ∀ (x : Entry),
    (xs.foldl (fun b e => if e.price < b.price then e else b) x) ∈ x :: xs ∧
    (xs.foldl (fun b e => if e.price < b.price then e else b) x).price ≤ x.price ∧
    ∀ y ∈ xs, (xs.foldl (fun b e => if e.price < b.price then e else b) x).price ≤ y.price := by
  induction xs with
  | nil =>
    intro x
    refine ⟨List.mem_cons_self x [], le_refl _, ?_⟩
    intro y hy
    exact absurd hy (List.not_mem_nil y)
  | cons y ys ih =>
    intro x
    rw [List.foldl_cons]
    obtain ⟨hmem, hle, hall⟩ := ih (if y.price < x.price then y else x)
    by_cases hc : y.price < x.price
    · rw [if_pos hc] at hmem hle hall ⊢
      refine ⟨List.mem_cons.mpr (Or.inr hmem), hle.trans hc.le, ?_⟩
      intro z hz
      rcases List.mem_cons.mp hz with rfl | hzs
      · exact hle
      · exact hall z hzs
    · rw [if_neg hc] at hmem hle hall ⊢
      refine ⟨?_, hle, ?_⟩
      · rcases List.mem_cons.mp hmem with hh | ht
        · exact List.mem_cons.mpr (Or.inl hh)
        · exact List.mem_cons.mpr (Or.inr (List.mem_cons.mpr (Or.inr ht)))
      · intro z hz
        rcases List.mem_cons.mp hz with rfl | hzs
        · exact hle.trans (not_lt.mp hc)
        · exact hall z hzs

theorem minByPrice_spec (l : List Entry) (e : Entry) (h : minByPrice l = some e) :
    e ∈ l ∧ ∀ x ∈ l, e.price ≤ x.price := by
  cases l with
  | nil => cases h
  | cons x xs =>
    simp only [minByPrice] at h
    obtain ⟨hmem, hle, hall⟩ := foldl_minBy_spec xs x
    have he := Option.some.inj h
    subst he
    refine ⟨hmem, ?_⟩
    intro z hz
    rcases List.mem_cons.mp hz with rfl | hzs
    · exact hle
    · exact hall z hzs

theorem minByPrice_eq_none_iff (l : List Entry) : minByPrice l = none ↔ l = [] := by
  cases l <;> simp [minByPrice]

theorem mem_entriesFor (a : String) (segs : List Entry) (e : Entry) :
    e ∈ entriesFor a segs ↔ e ∈ segs ∧ e.airline = a := by
  simp [entriesFor]

theorem chooseForAirline_spec (a : String) : ∀ (sr : List (List Entry)) (chosen : List Entry),
    chooseForAirline a sr = some chosen →
    List.Forall₂ (fun segs e => e ∈ segs ∧ e.airline = a ∧
      ∀ x ∈ segs, x.airline = a → e.price ≤ x.price) sr chosen := by
  intro sr
  induction sr with
  | nil =>
    intro chosen h
    have hch : chosen = [] := (Option.some.inj h).symm
    subst hch
    exact List.Forall₂.nil
  | cons segs rest ih =>
    intro chosen h
    unfold chooseForAirline at h
    cases hm : minByPrice (entriesFor a segs) with
    | none => rw [hm] at h; cases h
    | some e =>
      rw [hm] at h
      cases hr : chooseForAirline a rest with
      | none => rw [hr] at h; cases h
      | some l =>
        rw [hr] at h
        have hch : chosen = e :: l := (Option.some.inj h).symm
        subst hch
        obtain ⟨hmem, hmin⟩ := minByPrice_spec _ _ hm
        obtain ⟨hesegs, hea⟩ := (mem_entriesFor a segs e).mp hmem
        refine List.Forall₂.cons ⟨hesegs, hea, ?_⟩ (ih l hr)
        intro x hx hxa
        exact hmin x ((mem_entriesFor a segs x).mpr ⟨hx, hxa⟩)

theorem chooseForAirline_isSome (a : String) : ∀ (sr : List (List Entry)),
    isCommon sr a → ∃ chosen, chooseForAirline a sr = some chosen := by
  intro sr
  induction sr with
  | nil => intro _; exact ⟨[], rfl⟩
  | cons segs rest ih =>
    intro hc
    obtain ⟨e, he, hea⟩ := hc segs (List.mem_cons_self segs rest)
    have hne : entriesFor a segs ≠ [] :=
      List.ne_nil_of_mem ((mem_entriesFor a segs e).mpr ⟨he, hea⟩)
    obtain ⟨l, hl⟩ := ih (fun t ht => hc t (List.mem_cons.mpr (Or.inr ht)))
    cases hm : minByPrice (entriesFor a segs) with
    | none => exact absurd ((minByPrice_eq_none_iff _).mp hm) hne
    | some e0 =>
      refine ⟨e0 :: l, ?_⟩
      unfold chooseForAirline
      rw [hm, hl]

theorem chooseForAirline_common (a : String) (sr : List (List Entry)) (chosen : List Entry)
    (h : chooseForAirline a sr = some chosen) : isCommon sr a := by
  have hf := chooseForAirline_spec a sr chosen h
  clear h
  induction hf with
  | nil =>
    intro segs hs
    exact absurd hs (List.not_mem_nil _)
  | cons hR _ ih =>
    intro segs hs
    rcases List.mem_cons.mp hs with rfl | hmem
    · exact ⟨_, hR.1, hR.2.1⟩
    · exact ih segs hmem

theorem mkOffer_eq_none_iff (sr : List (List Entry)) (a : String) :
    mkOffer sr a = none ↔ ¬ isCommon sr a := by
  unfold mkOffer
  cases hch : chooseForAirline a sr with
  | none =>
    constructor
    · intro _ hc
      obtain ⟨chosen, hchosen⟩ := chooseForAirline_isSome a sr hc
      rw [hch] at hchosen
      cases hchosen
    · intro _
      rfl
  | some chosen =>
    constructor
    · intro h
      cases h
    · intro h
      exact (h (chooseForAirline_common a sr chosen hch)).elim

theorem mkOffer_eq_some (sr : List (List Entry)) (a : String) (o : FlightOffer)
    (h : mkOffer sr a = some o) :
    ∃ chosen, chooseForAirline a sr = some chosen ∧
      o = ⟨chosen, (chosen.map Entry.price).sum, chosen.map Entry.date⟩ := by
  unfold mkOffer at h
  cases hch : chooseForAirline a sr with
  | none => rw [hch] at h; cases h
  | some chosen =>
    rw [hch] at h
    exact ⟨chosen, rfl, (Option.some.inj h).symm⟩

theorem entriesFor_singleton (a : String) : ∀ (segs : List Entry),
    (segs.map Entry.airline).Nodup → ∀ (e : Entry), e ∈ segs → e.airline = a →
    entriesFor a segs = [e] := by
  intro segs
  induction segs with
  | nil =>
    intro _ e he
    exact absurd he (List.not_mem_nil e)
  | cons x rest ih =>
    intro hnd e he hea
    rw [List.map_cons, List.nodup_cons] at hnd
    obtain ⟨hx, hnd2⟩ := hnd
    rcases List.mem_cons.mp he with rfl | hmem
    · have hxfil : entriesFor a (e :: rest) = e :: entriesFor a rest := by
        simp [entriesFor, List.filter_cons, hea]
      have hfil : entriesFor a rest = [] := by
        rw [entriesFor, List.filter_eq_nil_iff]
        intro y hy hya
        rw [beq_iff_eq] at hya
        exact hx (List.mem_map.mpr ⟨y, hy, by rw [hya, hea]⟩)
      rw [hxfil, hfil]
    · have hxa : x.airline ≠ a := by
        intro hxeq
        exact hx (List.mem_map.mpr ⟨e, hmem, by rw [hea, hxeq]⟩)
      have hxfil : entriesFor a (x :: rest) = entriesFor a rest := by
        simp [entriesFor, List.filter_cons, hxa]
      rw [hxfil]
      exact ih hnd2 e hmem hea

theorem totalFor_cons (segs : List Entry) (rest : List (List Entry)) (a : String) :
    totalFor (segs :: rest) a =
      ((entriesFor a segs).map Entry.price).sum + totalFor rest a := by
  simp [totalFor]

theorem chosen_sum_eq_totalFor (a : String) : ∀ (sr : List (List Entry)) (chosen : List Entry),
    (∀ segs ∈ sr, (segs.map Entry.airline).Nodup) →
    chooseForAirline a sr = some chosen →
    (chosen.map Entry.price).sum = totalFor sr a := by
  intro sr
  induction sr with
  | nil =>
    intro chosen _ h
    have hch : chosen = [] := (Option.some.inj h).symm
    subst hch
    simp [totalFor]
  | cons segs rest ih =>
    intro chosen hnd h
    unfold chooseForAirline at h
    cases hm : minByPrice (entriesFor a segs) with
    | none => rw [hm] at h; cases h
    | some e =>
      rw [hm] at h
      cases hr : chooseForAirline a rest with
      | none => rw [hr] at h; cases h
      | some l =>
        rw [hr] at h
        have hch : chosen = e :: l := (Option.some.inj h).symm
        subst hch
        obtain ⟨hmem, _⟩ := minByPrice_spec _ _ hm
        obtain ⟨hesegs, hea⟩ := (mem_entriesFor a segs e).mp hmem
        have hsing := entriesFor_singleton a segs (hnd segs (List.mem_cons_self segs rest))
          e hesegs hea
        rw [totalFor_cons, hsing]
        simp only [List.map_cons, List.sum_cons, List.map_nil, List.sum_nil, add_zero]
        rw [ih l (fun t ht => hnd t (List.mem_cons.mpr (Or.inr ht))) hr]

theorem pickBetter_none_left (b : Option FlightOffer) : pickBetter none b = b := by
  cases b <;> rfl

theorem pickBetter_some_none (o : FlightOffer) : pickBetter (some o) none = some o := rfl

theorem pickBetter_some_some (o b : FlightOffer) :
    pickBetter (some o) (some b) = if o.price < b.price then some o else some b := rfl

theorem combineAux_nil (sr : List (List Entry)) (best : Option FlightOffer) :
    combineAux sr [] best = best := rfl

theorem combineAux_cons (sr : List (List Entry)) (a : String) (rest : List String)
    (best : Option FlightOffer) :
    combineAux sr (a :: rest) best =
      combineAux sr rest (pickBetter (mkOffer sr a) best) := rfl

theorem combineAux_spec (sr : List (List Entry)) :
    ∀ (as : List String) (best : Option FlightOffer),
    (combineAux sr as best = none ↔ best = none ∧ ∀ a ∈ as, mkOffer sr a = none) ∧
    (∀ o, combineAux sr as best = some o →
      (best = some o ∨ ∃ a ∈ as, mkOffer sr a = some o) ∧
      (∀ b, best = some b → o.price ≤ b.price) ∧
      (∀ a oa, a ∈ as → mkOffer sr a = some oa → o.price ≤ oa.price)) := by
  intro as
  induction as with
  | nil =>
    intro best
    constructor
    · rw [combineAux_nil]
      exact ⟨fun h => ⟨h, fun a ha => absurd ha (List.not_mem_nil a)⟩, fun h => h.1⟩
    · intro o h
      rw [combineAux_nil] at h
      refine ⟨Or.inl h, ?_, ?_⟩
      · intro b hb
        rw [h] at hb
        cases Option.some.inj hb
        exact le_refl _
      · intro a oa ha
        exact absurd ha (List.not_mem_nil a)
  | cons a rest ih =>
    intro best
    rw [combineAux_cons]
    cases hma : mkOffer sr a with
    | none =>
      rw [pickBetter_none_left]
      obtain ⟨ih1, ih2⟩ := ih best
      constructor
      · rw [ih1]
        constructor
        · rintro ⟨hb, hall⟩
          refine ⟨hb, ?_⟩
          intro a2 ha2
          rcases List.mem_cons.mp ha2 with rfl | hmem
          · exact hma
          · exact hall a2 hmem
        · rintro ⟨hb, hall⟩
          exact ⟨hb, fun a2 ha2 => hall a2 (List.mem_cons.mpr (Or.inr ha2))⟩
      · intro o ho
        obtain ⟨hor, hbnd, habnd⟩ := ih2 o ho
        refine ⟨?_, hbnd, ?_⟩
        · rcases hor with h | ⟨a2, ha2, hmk⟩
          · exact Or.inl h
          · exact Or.inr ⟨a2, List.mem_cons.mpr (Or.inr ha2), hmk⟩
        · intro a2 oa ha2 hmk
          rcases List.mem_cons.mp ha2 with rfl | hmem
          · rw [hma] at hmk
            cases hmk
          · exact habnd a2 oa hmem hmk
    | some o1 =>
      cases best with
      | none =>
        rw [pickBetter_some_none]
        obtain ⟨ih1, ih2⟩ := ih (some o1)
        constructor
        · rw [ih1]
          constructor
          · rintro ⟨hb, _⟩
            cases hb
          · rintro ⟨_, hall⟩
            have hcontra := hall a (List.mem_cons_self a rest)
            rw [hma] at hcontra
            cases hcontra
        · intro o ho
          obtain ⟨hor, hbnd, habnd⟩ := ih2 o ho
          refine ⟨?_, ?_, ?_⟩
          · rcases hor with h | ⟨a2, ha2, hmk⟩
            · have ho1 : o1 = o := Option.some.inj h
              exact Or.inr ⟨a, List.mem_cons_self a rest, by rw [hma, ho1]⟩
            · exact Or.inr ⟨a2, List.mem_cons.mpr (Or.inr ha2), hmk⟩
          · intro b hb
            cases hb
          · intro a2 oa ha2 hmk
            rcases List.mem_cons.mp ha2 with rfl | hmem
            · rw [hma] at hmk
              cases Option.some.inj hmk
              exact hbnd o1 rfl
            · exact habnd a2 oa hmem hmk
      | some b0 =>
        rw [pickBetter_some_some]
        by_cases hlt : o1.price < b0.price
        · rw [if_pos hlt]
          obtain ⟨ih1, ih2⟩ := ih (some o1)
          constructor
          · rw [ih1]
            constructor
            · rintro ⟨hb, _⟩
              cases hb
            · rintro ⟨hb, _⟩
              cases hb
          · intro o ho
            obtain ⟨hor, hbnd, habnd⟩ := ih2 o ho
            refine ⟨?_, ?_, ?_⟩
            · rcases hor with h | ⟨a2, ha2, hmk⟩
              · have ho1 : o1 = o := Option.some.inj h
                exact Or.inr ⟨a, List.mem_cons_self a rest, by rw [hma, ho1]⟩
              · exact Or.inr ⟨a2, List.mem_cons.mpr (Or.inr ha2), hmk⟩
            · intro b hb
              cases Option.some.inj hb
              exact (hbnd o1 rfl).trans hlt.le
            · intro a2 oa ha2 hmk
              rcases List.mem_cons.mp ha2 with rfl | hmem
              · rw [hma] at hmk
                cases Option.some.inj hmk
                exact hbnd o1 rfl
              · exact habnd a2 oa hmem hmk
        · rw [if_neg hlt]
          obtain ⟨ih1, ih2⟩ := ih (some b0)
          constructor
          · rw [ih1]
            constructor
            · rintro ⟨hb, _⟩
              cases hb
            · rintro ⟨hb, _⟩
              cases hb
          · intro o ho
            obtain ⟨hor, hbnd, habnd⟩ := ih2 o ho
            refine ⟨?_, ?_, ?_⟩
            · rcases hor with h | ⟨a2, ha2, hmk⟩
              · exact Or.inl h
              · exact Or.inr ⟨a2, List.mem_cons.mpr (Or.inr ha2), hmk⟩
            · intro b hb
              exact hbnd b hb
            · intro a2 oa ha2 hmk
              rcases List.mem_cons.mp ha2 with rfl | hmem
              · rw [hma] at hmk
                cases Option.some.inj hmk
                exact (hbnd b0 rfl).trans (not_lt.mp hlt)
              · exact habnd a2 oa hmem hmk

theorem mem_commonAirlines (sr : List (List Entry)) (hne : sr ≠ []) (a : String) :
    a ∈ commonAirlines sr ↔ isCommon sr a := by
  obtain ⟨segs0, rest, rfl⟩ := List.exists_cons_of_ne_nil hne
  show a ∈ (airlinesOf segs0).filter
      (fun a => rest.all (fun t => (t.map Entry.airline).contains a)) ↔ _
  rw [List.mem_filter]
  simp only [airlinesOf, List.mem_dedup, List.mem_map, List.all_eq_true]
  constructor
  · rintro ⟨⟨e, he, hea⟩, hall⟩
    intro segs hs
    rcases List.mem_cons.mp hs with rfl | hmem
    · exact ⟨e, he, hea⟩
    · have hc := hall segs hmem
      rw [List.elem_iff] at hc
      obtain ⟨e2, he2, hea2⟩ := List.mem_map.mp hc
      exact ⟨e2, he2, hea2⟩
  · intro hc
    obtain ⟨e, he, hea⟩ := hc segs0 (List.mem_cons_self segs0 rest)
    refine ⟨⟨e, he, hea⟩, ?_⟩
    intro segs hs
    obtain ⟨e2, he2, hea2⟩ := hc segs (List.mem_cons.mpr (Or.inr hs))
    rw [List.elem_iff]
    exact List.mem_map.mpr ⟨e2, he2, hea2⟩

theorem combine_same_none_iff (sr : List (List Entry)) (hne : sr ≠ []) :
    combineSegmentsSame sr = none ↔ ¬ ∃ a, isCommon sr a := by
  unfold combineSegmentsSame combineSegmentsSameOrder
  rw [(combineAux_spec sr (commonAirlines sr) none).1]
  simp only [true_and]
  constructor
  · rintro h ⟨a, hc⟩
    have ha := (mem_commonAirlines sr hne a).mpr hc
    have hnone := h a ha
    rw [mkOffer_eq_none_iff] at hnone
    exact hnone hc
  · intro h a ha
    rw [mkOffer_eq_none_iff]
    intro hc
    exact h ⟨a, hc⟩

/-- Claim C1: in same-airline mode, on nonempty well-formed SegmentIndices
(nonempty segments, at most one entry per airline), combine returns None
exactly when no airline is common to all segments; otherwise it returns
an offer for a common airline whose quotes are that airline's entries,
one per segment in order, whose total is the sum of those quotes and is
minimal among all common airlines. -/
theorem combine_same_airline_spec (sr : List (List Entry)) (hne : sr ≠ [])
    (hseg : ∀ segs ∈ sr, segs ≠ [])
    (hnd : ∀ segs ∈ sr, (segs.map Entry.airline).Nodup) :
    (combineSegmentsSame sr = none ↔ ¬ ∃ a, isCommon sr a) ∧
    ∀ offer, combineSegmentsSame sr = some offer →
      ∃ a, isCommon sr a ∧
        List.Forall₂ (fun segs e => e ∈ segs ∧ e.airline = a) sr offer.segments ∧
        offer.price = totalFor sr a ∧
        ∀ b, isCommon sr b → offer.price ≤ totalFor sr b := by
  refine ⟨combine_same_none_iff sr hne, ?_⟩
  intro offer hof
  have hof2 : combineAux sr (commonAirlines sr) none = some offer := hof
  obtain ⟨hor, _, habnd⟩ := (combineAux_spec sr (commonAirlines sr) none).2 offer hof2
  rcases hor with h | ⟨a, ha, hmk⟩
  · cases h
  · have hcom : isCommon sr a := (mem_commonAirlines sr hne a).mp ha
    obtain ⟨chosen, hch, hoeq⟩ := mkOffer_eq_some sr a offer hmk
    refine ⟨a, hcom, ?_, ?_, ?_⟩
    · have hf := chooseForAirline_spec a sr chosen hch
      have hsegs : offer.segments = chosen := by rw [hoeq]
      rw [hsegs]
      exact hf.imp (fun _ _ h => ⟨h.1, h.2.1⟩)
    · have hprice : offer.price = (chosen.map Entry.price).sum := by rw [hoeq]
      rw [hprice]
      exact chosen_sum_eq_totalFor a sr chosen hnd hch
    · intro b hb
      obtain ⟨chosenb, hchb⟩ := chooseForAirline_isSome b sr hb
      have hmkb : mkOffer sr b = some ⟨chosenb, (chosenb.map Entry.price).sum,
          chosenb.map Entry.date⟩ := by
        unfold mkOffer
        rw [hchb]
      have hle := habnd b _ ((mem_commonAirlines sr hne b).mpr hb) hmkb
      have hsum : (chosenb.map Entry.price).sum = totalFor sr b :=
        chosen_sum_eq_totalFor b sr chosenb hnd hchb
      rw [← hsum]
      exact hle

/-- Witness for C1 at the spec's example [{AA:100, BB:120}, {AA:90, BB:80}]:
the theorem applies, and the combination is AA in both segments at total
190 (BB would total 200). -/
theorem combine_same_airline_spec_witness :
    ((combineSegmentsSame [[⟨"AA", 100, 0⟩, ⟨"BB", 120, 0⟩],
        [⟨"AA", 90, 1⟩, ⟨"BB", 80, 1⟩]] = none ↔
      ¬ ∃ a, isCommon [[⟨"AA", 100, 0⟩, ⟨"BB", 120, 0⟩],
        [⟨"AA", 90, 1⟩, ⟨"BB", 80, 1⟩]] a) ∧
    ∀ offer, combineSegmentsSame [[⟨"AA", 100, 0⟩, ⟨"BB", 120, 0⟩],
        [⟨"AA", 90, 1⟩, ⟨"BB", 80, 1⟩]] = some offer →
      ∃ a, isCommon [[⟨"AA", 100, 0⟩, ⟨"BB", 120, 0⟩],
          [⟨"AA", 90, 1⟩, ⟨"BB", 80, 1⟩]] a ∧
        List.Forall₂ (fun segs e => e ∈ segs ∧ e.airline = a)
          [[⟨"AA", 100, 0⟩, ⟨"BB", 120, 0⟩], [⟨"AA", 90, 1⟩, ⟨"BB", 80, 1⟩]]
          offer.segments ∧
        offer.price = totalFor [[⟨"AA", 100, 0⟩, ⟨"BB", 120, 0⟩],
          [⟨"AA", 90, 1⟩, ⟨"BB", 80, 1⟩]] a ∧
        ∀ b, isCommon [[⟨"AA", 100, 0⟩, ⟨"BB", 120, 0⟩],
            [⟨"AA", 90, 1⟩, ⟨"BB", 80, 1⟩]] b →
          offer.price ≤ totalFor [[⟨"AA", 100, 0⟩, ⟨"BB", 120, 0⟩],
            [⟨"AA", 90, 1⟩, ⟨"BB", 80, 1⟩]] b) ∧
    combineSegmentsSame [[⟨"AA", 100, 0⟩, ⟨"BB", 120, 0⟩],
        [⟨"AA", 90, 1⟩, ⟨"BB", 80, 1⟩]] =
      some ⟨[⟨"AA", 100, 0⟩, ⟨"AA", 90, 1⟩], 190, [0, 1]⟩ :=
  ⟨combine_same_airline_spec [[⟨"AA", 100, 0⟩, ⟨"BB", 120, 0⟩],
      [⟨"AA", 90, 1⟩, ⟨"BB", 80, 1⟩]] (by decide) (by decide) (by decide),
   by
     simp +decide [combineSegmentsSame, combineSegmentsSameOrder, combineAux,
       pickBetter, mkOffer, chooseForAirline, minByPrice, entriesFor, commonAirlines,
       airlinesOf, List.dedup_cons_of_not_mem, List.filter_cons]
     norm_num⟩

/-- Counterexample to claim C5 as stated: in independent mode with a
single empty segment result (None), combine_segments does not return
None; it filters the falsy element away and returns an offer with zero
quotes for one segment. -/
theorem combine_empty_index_cex :
    combine_segments (SegmentResults.indep [none]) ≠ none ∧
    combine_segments (SegmentResults.indep [none]) = some ⟨[], 0, []⟩ := by
  constructor
  · simp +decide [combine_segments, combineSegmentsIndep]
  · simp +decide [combine_segments, combineSegmentsIndep]

/-- Claim C5 amended: with an empty index present, same-airline mode
returns None, while independent mode drops the empty (falsy) results and
returns an offer with one quote per remaining result; in run_check the
all(segment_results) guard stops both modes before combining, leaving
the history untouched. -/
theorem combine_empty_index_amended (sr : List (List Entry)) (hmem : [] ∈ sr)
    (sri : List (Option Entry)) (hmem2 : none ∈ sri)
    (itin : List (String × String)) (maxPrice : ℚ) (hist : List (String × ℚ)) :
    combine_segments (SegmentResults.same sr) = none ∧
    (∀ o, combine_segments (SegmentResults.indep sri) = some o →
      o.segments = sri.filterMap id) ∧
    run_check itin maxPrice (SegmentResults.same sr) hist = ⟨false, hist⟩ ∧
    run_check itin maxPrice (SegmentResults.indep sri) hist = ⟨false, hist⟩ := by
  have hne : sr ≠ [] := List.ne_nil_of_mem hmem
  refine ⟨?_, ?_, ?_, ?_⟩
  · show combineSegmentsSame sr = none
    rw [combine_same_none_iff sr hne]
    rintro ⟨a, hc⟩
    obtain ⟨e, he, _⟩ := hc [] hmem
    exact absurd he (List.not_mem_nil e)
  · intro o ho
    have : combineSegmentsIndep sri = o := Option.some.inj ho
    rw [← this]
    rfl
  · have hfalse : allTruthy (SegmentResults.same sr) = false := by
      simp only [allTruthy, List.all_eq_false]
      exact ⟨[], hmem, by simp⟩
    unfold run_check
    rw [hfalse]
    rfl
  · have hfalse : allTruthy (SegmentResults.indep sri) = false := by
      simp only [allTruthy, List.all_eq_false]
      exact ⟨none, hmem2, by simp⟩
    unfold run_check
    rw [hfalse]
    rfl

/-- Witness for the amended C5 at one-element inputs. -/
theorem combine_empty_index_amended_witness :
    combine_segments (SegmentResults.same [[]]) = none ∧
    (∀ o, combine_segments (SegmentResults.indep [none]) = some o →
      o.segments = ([none] : List (Option Entry)).filterMap id) ∧
    run_check [("SIN", "VIE")] 1400 (SegmentResults.same [[]]) [("x", 7)] =
      ⟨false, [("x", 7)]⟩ ∧
    run_check [("SIN", "VIE")] 1400 (SegmentResults.indep [none]) [("x", 7)] =
      ⟨false, [("x", 7)]⟩ :=
  combine_empty_index_amended [[]] (by decide) [none] (by decide)
    [("SIN", "VIE")] 1400 [("x", 7)]

/-- Claim C7, evaluated on the code: the tie-break between equal-total
common airlines depends on the enumeration order of the Python set
common_airlines, which is hash-dependent; the two enumerations of the
same intersection {AA, BB} select different airlines when both total
100. -/
theorem combine_tie_break_order_dependent :
    (["AA", "BB"] : List String).Perm ["BB", "AA"] ∧
    commonAirlines [[⟨"AA", 100, 0⟩, ⟨"BB", 100, 0⟩]] = ["AA", "BB"] ∧
    combineSegmentsSameOrder ["AA", "BB"] [[⟨"AA", 100, 0⟩, ⟨"BB", 100, 0⟩]] ≠
      combineSegmentsSameOrder ["BB", "AA"] [[⟨"AA", 100, 0⟩, ⟨"BB", 100, 0⟩]] := by
  refine ⟨by decide, ?_, ?_⟩
  · simp +decide [commonAirlines, airlinesOf, List.dedup_cons_of_not_mem]
  · simp +decide [combineSegmentsSameOrder, combineAux, pickBetter, mkOffer,
      chooseForAirline, minByPrice, entriesFor, List.filter_cons]
